import Mathlib

/-!
# Verification of the rsh parsing-and-execution engine

A shallow embedding of the core of the `rsh` interactive shell:

* `src/parser/parse.rs` — the nom-based recursive-descent parser producing the
  `Node` AST.  Parsers are embedded as functions `List Char → Option (List Char × α)`
  (nom's `IResult<&str, A>`: `some (rest, a)` is `Ok((rest, a))`, `none` is `Err`).
  nom's `permutation` tuples are applied in this grammar to parsers whose success
  order is forced (every later element fails on the text consumed by an earlier
  one), so they are embedded as left-to-right sequencing; `many1` is embedded
  with explicit fuel together with nom's infinite-loop guard (an iteration that
  succeeds without consuming input is an error).
* `src/evaluator/evaluator.rs` — argument resolution (`eval_command`), variable
  definition (`eval_define`), the redirection accumulator (`eval_redirect_branch`,
  where `File::open(..).unwrap()` / `File::create(..).unwrap()` panic on failure,
  embedded as `none`), and the builtin dispatch of `rsh_execute`.
* `src/log/log_maneger.rs` — the CSV history writer/reader, with `BufRead::lines`'
  newline and CRLF stripping embedded faithfully.
-/

namespace Rsh

/-! ## Parser combinator primitives (nom embedding) -/

/-- `spanP keep s` splits `s` into its longest prefix of characters satisfying
`keep` and the remaining suffix. -/
def spanP (keep : Char → Bool) : List Char → List Char × List Char
  | [] => ([], [])
  | c :: cs =>
    if keep c then
      let r := spanP keep cs
      (c :: r.1, r.2)
    else ([], c :: cs)

/-- Matching of a literal tag, character by character (nom `tag`). -/
def tagAux : List Char → List Char → Option (List Char)
  | [], s => some s
  | _ :: _, [] => none
  | t :: ts, c :: cs => if c = t then tagAux ts cs else none

/-- nom `tag(t)` : succeeds iff `t` is a prefix of the input. -/
def tagP (t : List Char) (s : List Char) : Option (List Char × List Char) :=
  match tagAux t s with
  | some rest => some (rest, t)
  | none => none

/-- nom `is_not(set)` : the longest nonempty run of characters for which
`bad` is false; fails when that run is empty. -/
def isNotP (bad : Char → Bool) (s : List Char) : Option (List Char × List Char) :=
  match spanP (fun c => !(bad c)) s with
  | ([], _) => none
  | (tk, rest) => some (rest, tk)

/-- nom `alt((p, q))`. -/
def altP {α : Type} (p q : List Char → Option (List Char × α))
    (s : List Char) : Option (List Char × α) :=
  match p s with
  | some r => some r
  | none => q s

/-- Characters accepted by nom `multispace0`. -/
def isMS (c : Char) : Bool :=
  c == ' ' || c == '\t' || c == '\n' || c == '\r'

/-- nom `multispace0`, which always succeeds, embedded as the rest of the
input after the leading whitespace run. -/
def multispace0 (s : List Char) : List Char :=
  (spanP isMS s).2

/-- nom `space0` (spaces and tabs only), embedded like `multispace0`. -/
def space0 (s : List Char) : List Char :=
  (spanP (fun c => c == ' ' || c == '\t') s).2

/-- nom `take_while(|c| c == ' ')` as used in `parse_command`. -/
def spaces0 (s : List Char) : List Char :=
  (spanP (fun c => c == ' ') s).2

/-- The loop of nom `many1` after its first element: stops when the element
parser fails, errors (like nom's infinite-loop check) when an iteration
succeeds without consuming input.  The fuel argument only bounds the number
of iterations; `runManyLoop` supplies more fuel than iterations can occur. -/
def manyLoopF {α : Type} (p : List Char → Option (List Char × α)) :
    Nat → List Char → Option (List Char × List α)
  | 0, _ => none
  | f + 1, s =>
    match p s with
    | none => some (s, [])
    | some (s', a) =>
      if s'.length < s.length then
        match manyLoopF p f s' with
        | some (s'', as) => some (s'', a :: as)
        | none => none
      else none

/-- `manyLoopF` with sufficient fuel. -/
def runManyLoop {α : Type} (p : List Char → Option (List Char × α))
    (s : List Char) : Option (List Char × List α) :=
  manyLoopF p (s.length + 1) s

/-- nom `many1(p)` : `p` once, then the loop. -/
def runMany1 {α : Type} (p : List Char → Option (List Char × α))
    (s : List Char) : Option (List Char × List α) :=
  match p s with
  | none => none
  | some (s1, a) =>
    match manyLoopF p (s1.length + 1) s1 with
    | some (s2, as) => some (s2, a :: as)
    | none => none

/-! ## The AST (`Node`, parse.rs lines 14-27)

The `enum Node` of the source has exactly these variants.  In particular it
has no `RedirectOutputAppend`, no `RedirectErrorOutputAppend` and no
`Reference` variant. -/

/-- The shell AST, mirroring `enum Node` of parse.rs. -/
inductive Node : Type where
  | compoundStatement (stmt : List Node)
  | define (var data : Node)
  | comment (text : List Char)
  | commandStatement (command : Node) (args : List Node)
  | pipeline (stages : List Node)
  | redirectInput (destination : Node)
  | redirectOutput (destination : Node)
  | redirectErrorOutput (destination : Node)
  | redirect (command : Node) (destination : List Node)
  | execScript (filename : Node)
  | identifier (text : List Char)

/-! ## The parsers (parse.rs lines 304-545) -/

/-- Character set of `is_not("\n \\<>;|=#")` in `parse_constant`. -/
def constBad (c : Char) : Bool :=
  c == '\n' || c == ' ' || c == '\\' || c == '<' || c == '>' ||
  c == ';' || c == '|' || c == '=' || c == '#'

/-- Character set of `is_not("\n \\<>;|=#!\"$")` in `parse_not_space`. -/
def notSpaceBad (c : Char) : Bool :=
  constBad c || c == '!' || c == '"' || c == '$'

/-- `parse_comment` : `preceded(tag("#"), not_line_ending)`.  nom's
`not_line_ending` takes characters up to `\r\n` or `\n` and rejects a `\r`
not followed by `\n`. -/
def parse_comment (s : List Char) : Option (List Char × Node) :=
  match tagP ['#'] s with
  | none => none
  | some (s1, _) =>
    match spanP (fun c => !(c == '\n') && !(c == '\r')) s1 with
    | (tk, rest) =>
      match rest with
      | '\r' :: '\n' :: _ => some (rest, Node.comment tk)
      | '\r' :: _ => none
      | _ => some (rest, Node.comment tk)

/-- `parse_constant` : a nonempty bareword run. -/
def parse_constant (s : List Char) : Option (List Char × Node) :=
  match isNotP constBad s with
  | none => none
  | some (rest, tk) => some (rest, Node.identifier tk)

/-- One quote-delimited alternative of `parse_identifier`. -/
def delimQ (q : Char) (s : List Char) : Option (List Char × List Char) :=
  match tagP [q] s with
  | none => none
  | some (s1, _) =>
    match isNotP (fun c => c == q) s1 with
    | none => none
    | some (s2, tk) =>
      match tagP [q] s2 with
      | none => none
      | some (s3, _) => some (s3, tk)

/-- `parse_identifier` : a `"`- or `'`-quoted string, quotes stripped. -/
def parse_identifier (s : List Char) : Option (List Char × Node) :=
  match delimQ '"' s with
  | some (rest, tk) => some (rest, Node.identifier tk)
  | none =>
    match delimQ '\'' s with
    | some (rest, tk) => some (rest, Node.identifier tk)
    | none => none

/-- `parse_not_space`. -/
def parse_not_space (s : List Char) : Option (List Char × Node) :=
  match isNotP notSpaceBad s with
  | none => none
  | some (rest, tk) => some (rest, Node.identifier tk)

/-- Element parser of `parse_filename_with_dot` :
`alt((tag("."), alphanumeric1))`.  nom `alphanumeric1` is a nonempty ASCII
alphanumeric run. -/
def dotOrAlnum (s : List Char) : Option (List Char × List Char) :=
  altP (tagP ['.']) (isNotP (fun c => !c.isAlphanum)) s

/-- `parse_filename_with_dot` : `many1(alt((tag("."), alphanumeric1)))`,
joined into one identifier. -/
def parse_filename_with_dot (s : List Char) : Option (List Char × Node) :=
  match runMany1 dotOrAlnum s with
  | none => none
  | some (rest, parts) => some (rest, Node.identifier parts.flatten)

/-- `parse_filename`. -/
def parse_filename (s : List Char) : Option (List Char × Node) :=
  altP parse_filename_with_dot parse_not_space s

/-- `parse_exec_script` : `tag("./")` followed by a filename. -/
def parse_exec_script (s : List Char) : Option (List Char × Node) :=
  match tagP ['.', '/'] s with
  | none => none
  | some (s1, _) =>
    match parse_filename s1 with
    | none => none
    | some (rest, f) => some (rest, Node.execScript f)

/-- One argument of `parse_command` :
`permutation((take_while(' '), alt((parse_identifier, parse_constant))))`,
projected to the node. -/
def parse_command_arg (s : List Char) : Option (List Char × Node) :=
  match altP parse_identifier parse_constant (spaces0 s) with
  | none => none
  | some r => some r

/-- `parse_command` : a constant command name and an optional `many1` of
arguments (parse.rs lines 375-402). -/
def parse_command (s : List Char) : Option (List Char × Node) :=
  match parse_constant s with
  | none => none
  | some (s1, cmd) =>
    match runMany1 parse_command_arg s1 with
    | some (s2, args) => some (s2, Node.commandStatement cmd args)
    | none => some (s1, Node.commandStatement cmd [])

/-- The backslash-continuation group inside `parse_command_with_backslash` :
`tag("\\")`, an optional two-space-and-comment group, `space0`, and an
optional newline. -/
def parse_bs_cont (s : List Char) : Option (List Char) :=
  match tagP ['\\'] s with
  | none => none
  | some (s1, _) =>
    let s2 :=
      match tagP [' ', ' '] s1 with
      | none => s1
      | some (s1a, _) =>
        match parse_comment (multispace0 s1a) with
        | none => s1
        | some (s1b, _) => s1b
    let s3 := space0 s2
    match tagP ['\n'] s3 with
    | none => some s3
    | some (s4, _) => some s4

/-- One argument of `parse_command_with_backslash`. -/
def parse_bs_arg (s : List Char) : Option (List Char × Node) :=
  let s1 := space0 s
  let s2 :=
    match parse_bs_cont s1 with
    | none => s1
    | some sx => sx
  altP parse_identifier parse_constant (space0 s2)

/-- `parse_command_with_backslash` (parse.rs lines 404-432). -/
def parse_command_with_backslash (s : List Char) : Option (List Char × Node) :=
  match parse_constant s with
  | none => none
  | some (s1, cmd) =>
    match runMany1 parse_bs_arg s1 with
    | none => none
    | some (s2, args) => some (s2, Node.commandStatement cmd args)

/-- `parse_define` : `constant "=" quoted-identifier` (parse.rs lines 434-445). -/
def parse_define (s : List Char) : Option (List Char × Node) :=
  match parse_constant (multispace0 s) with
  | none => none
  | some (s1, var) =>
    match tagP ['='] s1 with
    | none => none
    | some (s2, _) =>
      match parse_identifier s2 with
      | none => none
      | some (rest, data) => some (rest, Node.define var data)

/-- `parse_redirect_specifier` (parse.rs lines 447-470): one of the tags
`<`, `>`, `2>` — tried in that order, so no append operator exists — then a
filename. -/
def parse_redirect_specifier (s : List Char) : Option (List Char × Node) :=
  match altP (tagP ['<']) (altP (tagP ['>']) (tagP ['2', '>'])) (multispace0 s) with
  | none => none
  | some (s1, kind) =>
    match parse_filename (multispace0 s1) with
    | none => none
    | some (rest, f) =>
      if kind = ['<'] then some (rest, Node.redirectInput f)
      else if kind = ['>'] then some (rest, Node.redirectOutput f)
      else if kind = ['2', '>'] then some (rest, Node.redirectErrorOutput f)
      else none

/-- `parse_redirect` : a command followed by `many1` redirect specifiers. -/
def parse_redirect (s : List Char) : Option (List Char × Node) :=
  match parse_command s with
  | none => none
  | some (s1, cmd) =>
    match runMany1 parse_redirect_specifier s1 with
    | none => none
    | some (rest, dests) => some (rest, Node.redirect cmd dests)

/-- One further stage of `parse_pipeline` :
`permutation((multispace0, tag("|"), multispace0, alt((parse_redirect, parse_command))))`,
projected to the stage node. -/
def parse_pipe_elem (s : List Char) : Option (List Char × Node) :=
  match tagP ['|'] (multispace0 s) with
  | none => none
  | some (s1, _) =>
    altP parse_redirect parse_command (multispace0 s1)

/-- `parse_pipeline` (parse.rs lines 480-505): a first stage
(`alt((parse_command, parse_redirect))`) and `many1` further stages. -/
def parse_pipeline (s : List Char) : Option (List Char × Node) :=
  match altP parse_command parse_redirect s with
  | none => none
  | some (s1, first) =>
    match runMany1 parse_pipe_elem s1 with
    | none => none
    | some (rest, others) => some (rest, Node.pipeline (first :: others))

/-- `parse_statement` (parse.rs lines 506-521): leading and trailing
whitespace around the first-match-wins alternative list. -/
def parse_statement (s : List Char) : Option (List Char × Node) :=
  match
    altP parse_comment
      (altP parse_redirect
        (altP parse_exec_script
          (altP parse_define
            (altP parse_pipeline
              (altP parse_command_with_backslash parse_command)))))
      (multispace0 s)
  with
  | none => none
  | some (s1, n) => some (multispace0 s1, n)

/-- A statement with an optional trailing `;` (first branch of
`parse_compound_statement`). -/
def parse_stmt_semi (s : List Char) : Option (List Char × Node) :=
  match parse_statement s with
  | none => none
  | some (s1, stmt) =>
    match tagP [';'] s1 with
    | none => some (s1, stmt)
    | some (s2, _) => some (s2, stmt)

/-- `parse_compound_statement` (parse.rs lines 523-539). -/
def parse_compound_statement (s : List Char) : Option (List Char × Node) :=
  match altP (runMany1 parse_stmt_semi) (runMany1 parse_statement) s with
  | none => none
  | some (rest, stmts) => some (rest, Node.compoundStatement stmts)

/-- `parse_node`, the parser entry point (parse.rs lines 541-544). -/
def parse_node (s : List Char) : Option (List Char × Node) :=
  parse_compound_statement s

/-! ## AST helpers of the source (parse.rs lines 45-61)

`Node::get_lhs` / `Node::get_rhs` project a `CommandStatement`; on any other
variant they return `Default::default()`, which is `Identifier("")` for a
node and the empty vector for the argument list. -/

/-- `Node::get_lhs`. -/
def getLhs : Node → Node
  | .commandStatement c _ => c
  | _ => .identifier []

/-- `Node::get_rhs`. -/
def getRhs : Node → List Node
  | .commandStatement _ args => args
  | _ => []

/-! ## The evaluator (evaluator.rs)

The `Evaluator` struct owns `now_process : Process` and
`pipe_commands : Vec<Vec<String>>` (besides the `Rsh` handle).  There is no
variable store anywhere in the evaluator or in `Rsh` (the `env_database` of
`Rsh` holds `$PATH` entries for completion only), and `Node` has no
`Reference` variant. -/

/-- `enum Process` (evaluator.rs lines 30-33). -/
inductive ProcessMode : Type where
  | noPipe
  | pipe
deriving DecidableEq, Repr

/-- The mutable state of `Evaluator` (evaluator.rs lines 35-39), minus the
`Rsh` UI handle. -/
structure EvaluatorState : Type where
  nowProcess : ProcessMode
  pipeCommands : List (List (List Char))
deriving DecidableEq, Repr

/-- Resolution of a single command or argument node in `eval_command`
(evaluator.rs lines 263-278): an `Identifier` yields its literal text, every
other variant yields `Default::default()`, i.e. the empty string. -/
def nodeToText : Node → List Char
  | .identifier t => t
  | _ => []

/-- The argument-resolution part of `eval_command` (evaluator.rs lines
263-281): `full_command` is the resolved command name followed by the
resolved arguments, one entry per argument node. -/
def eval_command_resolve (command : Node) (args : List Node) : List (List Char) :=
  nodeToText command :: args.map nodeToText

/-- `eval_define` (evaluator.rs lines 299-309): resolves both sides like
`eval_command` and executes `println!("{} = {}\n", var, data)`.  It touches no
field of the evaluator; the returned pair is the unchanged state and the text
printed to stdout. -/
def eval_define (var data : Node) (st : EvaluatorState) : EvaluatorState × List Char :=
  (st, nodeToText var ++ (' ' :: '=' :: ' ' :: nodeToText data) ++ ['\n', '\n'])

/-- A standard-stream binding as assembled by `eval_redirect` /
`eval_redirect_branch`: either the inherited stream or a named file. -/
inductive StdioBinding : Type where
  | inherit
  | file (name : List Char)
deriving DecidableEq, Repr

/-- The three stream bindings threaded through `eval_redirect_branch`. -/
structure Bindings : Type where
  stdin : StdioBinding
  stdout : StdioBinding
  stderr : StdioBinding
deriving DecidableEq, Repr

/-- The file system as seen by `eval_redirect_branch` : which paths
`File::open` and `File::create` succeed on. -/
structure FileSys : Type where
  canOpen : List Char → Bool
  canCreate : List Char → Bool

/-- `eval_redirect_input` / `eval_redirect_output` / `eval_redirect_error_output`
(evaluator.rs lines 424-455): the destination must be an `Identifier`; any
other node hits `unreachable!()`, i.e. a panic, embedded as `none`. -/
def destFileName : Node → Option (List Char)
  | .identifier t => some t
  | _ => none

/-- `eval_redirect_branch` (evaluator.rs lines 388-422).  The destination
list is walked in order; each specifier overwrites the binding of its stream.
`File::open(..).unwrap()` and `File::create(..).unwrap()` panic when the file
system refuses, and a non-`Identifier` destination panics in the resolver;
both panics are embedded as `none`.  Any other destination node is printed
and skipped. -/
def eval_redirect_branch (fs : FileSys) : List Node → Bindings → Option Bindings
  | [], b => some b
  | d :: ds, b =>
    match d with
    | .redirectInput dest =>
      match destFileName dest with
      | none => none
      | some n =>
        if fs.canOpen n then
          eval_redirect_branch fs ds { b with stdin := .file n }
        else none
    | .redirectOutput dest =>
      match destFileName dest with
      | none => none
      | some n =>
        if fs.canCreate n then
          eval_redirect_branch fs ds { b with stdout := .file n }
        else none
    | .redirectErrorOutput dest =>
      match destFileName dest with
      | none => none
      | some n =>
        if fs.canCreate n then
          eval_redirect_branch fs ds { b with stderr := .file n }
        else none
    | _ => eval_redirect_branch fs ds b

/-- The run request `eval_redirect` (evaluator.rs lines 457-495) hands to
`rsh_pipe_launch` : the resolved stage vector and the stream bindings. -/
structure LaunchRequest : Type where
  stages : List (List (List Char))
  bindings : Bindings
deriving Repr

/-- `eval_redirect` up to the launch call (evaluator.rs lines 457-487): the
command is resolved through `get_lhs` / `get_rhs` like `eval_command`, the
bindings start from the inherited streams and are filled by
`eval_redirect_branch`; a panic inside the branch aborts the evaluation
(`none`). -/
def eval_redirect (fs : FileSys) (command : Node) (dests : List Node) :
    Option LaunchRequest :=
  let full := eval_command_resolve (getLhs command) (getRhs command)
  match eval_redirect_branch fs dests ⟨.inherit, .inherit, .inherit⟩ with
  | none => none
  | some b => some ⟨[full], b⟩

/-- The last input-redirect destination of a list, if any (later entries
override earlier ones). -/
def lastInputDest : List Node → Option (List Char)
  | [] => none
  | d :: ds =>
    match lastInputDest ds with
    | some n => some n
    | none =>
      match d with
      | .redirectInput (.identifier n) => some n
      | _ => none

/-- The last output-redirect destination of a list, if any. -/
def lastOutputDest : List Node → Option (List Char)
  | [] => none
  | d :: ds =>
    match lastOutputDest ds with
    | some n => some n
    | none =>
      match d with
      | .redirectOutput (.identifier n) => some n
      | _ => none

/-- The last error-redirect destination of a list, if any. -/
def lastErrorDest : List Node → Option (List Char)
  | [] => none
  | d :: ds =>
    match lastErrorDest ds with
    | some n => some n
    | none =>
      match d with
      | .redirectErrorOutput (.identifier n) => some n
      | _ => none

/-! ## `rsh_execute` dispatch (evaluator.rs lines 187-257) -/

/-- `RshError` (error.rs lines 1-12). -/
structure RshError : Type where
  message : List Char
deriving DecidableEq, Repr

/-- What `rsh_execute` decides to do with a resolved argument vector: one of
the four builtins, an external spawn (`Process::NoPipe`), or pushing the
stage onto `pipe_commands` (`Process::Pipe`). -/
inductive ExecAction : Type where
  | builtinCd (dir : List Char)
  | builtinLogo
  | builtinHistory
  | builtinExit
  | runExternal (args : List (List Char))
  | pushPipeStage (args : List (List Char))
deriving DecidableEq, Repr

/-- The dispatch of `rsh_execute` (evaluator.rs lines 187-257).  `args.get(0)`
absent is the error `"Failed to get args"` (line 255); otherwise the first
token selects a builtin (`cd` with `args.get(1)` defaulted to `"./"`,
`%logo`, `%fl`, `exit`) or, depending on `now_process`, an external run or a
pipeline-stage push.  The history append performed on entry is an I/O side
effect with no influence on the dispatch and is not part of this model. -/
def rsh_execute (mode : ProcessMode) (args : List (List Char)) :
    Except RshError ExecAction :=
  match args with
  | [] => .error ⟨"Failed to get args".toList⟩
  | arg :: rest =>
    if arg = "cd".toList then
      .ok (.builtinCd (match rest.head? with
        | some dir => dir
        | none => "./".toList))
    else if arg = "%logo".toList then .ok .builtinLogo
    else if arg = "%fl".toList then .ok .builtinHistory
    else if arg = "exit".toList then .ok .builtinExit
    else
      match mode with
      | .noPipe => .ok (.runExternal (arg :: rest))
      | .pipe => .ok (.pushPipeStage (arg :: rest))

/-! ## The command-text / AST hand-off of `execute_commands`
(rsh.rs lines 1048-1069)

`execute_commands` calls `Parse::parse_node` and destructures the result as
`Ok((_, node))` — the unconsumed remainder is discarded — before evaluating
`node`. -/

/-- The AST that `execute_commands` hands to the evaluator, if any: the
parsed node of `parse_node`, with the unconsumed remainder ignored
(rsh.rs line 1059). -/
def execute_commands_ast (input : List Char) : Option Node :=
  match parse_node input with
  | some (_, node) => some node
  | none => none

/-! ## History CSV log (log_maneger.rs) -/

/-- A history record (log_maneger.rs lines 8-11). -/
structure History : Type where
  command : List Char
  time : List Char
deriving DecidableEq, Repr

/-- `csv_writer` (log_maneger.rs lines 25-31): appends
`writeln!("{},{}", command, time)` to the file content. -/
def csv_writer (command time : List Char) (content : List Char) : List Char :=
  content ++ (command ++ (',' :: (time ++ ['\n'])))

/-- Writing a list of records to a file, first to last (repeated
`csv_writer` calls in append mode). -/
def csv_write_all (pairs : List (List Char × List Char)) (content : List Char) :
    List Char :=
  pairs.foldl (fun acc p => csv_writer p.1 p.2 acc) content

/-- `BufRead::lines` : splits on `'\n'`, stripping the `'\n'` and a `'\r'`
immediately before it; a final fragment without a newline is kept as is. -/
def linesOf : List Char → List (List Char)
  | [] => []
  | [c] => if c = '\n' then [[]] else [[c]]
  | c1 :: c2 :: cs =>
    if c1 = '\n' then [] :: linesOf (c2 :: cs)
    else if c1 = '\r' ∧ c2 = '\n' then [] :: linesOf cs
    else
      match linesOf (c2 :: cs) with
      | [] => [[c1]]
      | l :: ls => (c1 :: l) :: ls

/-- Rust `str::split(',')` : the comma-separated parts of a line (one part
more than there are commas). -/
def splitComma : List Char → List (List Char)
  | [] => [[]]
  | c :: cs =>
    if c = ',' then [] :: splitComma cs
    else
      match splitComma cs with
      | [] => [[c]]
      | l :: ls => (c :: l) :: ls

/-- `csv_reader` (log_maneger.rs lines 33-51): every line that splits on
`','` into exactly two parts becomes a `History` record; other lines are
skipped. -/
def csv_reader (content : List Char) : List History :=
  (linesOf content).filterMap fun line =>
    match splitComma line with
    | [a, b] => some ⟨a, b⟩
    | _ => none

/-- The file content produced by writing a list of records to an initially
empty file: the concatenation of the individual `command,time\n` lines. -/
def joinRecords : List (List Char × List Char) → List Char
  | [] => []
  | p :: ps => (p.1 ++ (',' :: (p.2 ++ ['\n']))) ++ joinRecords ps

/-- Whether a character list ends with a carriage return. -/
def endsWithCR : List Char → Bool
  | [] => false
  | [c] => c == '\r'
  | _ :: c :: cs => endsWithCR (c :: cs)

/-! ## Shape predicates for the parser-output invariant

Non-recursive checks that the grammar-shaped AST places an `Identifier` in
every command position and only `Identifier` nodes in argument and
destination positions.  Because the grammar nests statements at most
`compound → pipeline → redirect → command`, these finitely many layers cover
every node of a parser-produced AST. -/

/-- Is the node an `Identifier`? -/
def isIdent : Node → Bool
  | .identifier _ => true
  | _ => false

/-- A well-formed command statement: `Identifier` command, all-`Identifier`
arguments. -/
def cmdWF : Node → Bool
  | .commandStatement c args => isIdent c && args.all isIdent
  | _ => false

/-- A well-formed redirect specifier: one of the three kinds with an
`Identifier` destination. -/
def specWF : Node → Bool
  | .redirectInput d => isIdent d
  | .redirectOutput d => isIdent d
  | .redirectErrorOutput d => isIdent d
  | _ => false

/-- A well-formed pipeline stage: a command, or a redirect of a command. -/
def stageWF (n : Node) : Bool :=
  cmdWF n ||
    (match n with
     | .redirect c ds => cmdWF c && ds.all specWF
     | _ => false)

/-- A well-formed statement: any alternative of `parse_statement`. -/
def stmtWF : Node → Bool
  | .comment _ => true
  | .define v d => isIdent v && isIdent d
  | .execScript f => isIdent f
  | .pipeline stages => stages.all stageWF
  | n => stageWF n

/-- A well-formed parse result: a compound statement of well-formed
statements. -/
def astWF : Node → Bool
  | .compoundStatement stmts => stmts.all stmtWF
  | _ => false

/-- Characters a bareword token may consist of: not a parser metacharacter
(`parse_constant`'s excluded set), not a quote, and not one of the blank
characters `multispace0` would consume. -/
def bareChar (c : Char) : Bool :=
  !(constBad c) && !(c == '"') && !(c == '\'') && !(c == '\t') && !(c == '\r')

/-- The remainder at which a bareword run stops: the end of input or a
character of `parse_constant`'s excluded set. -/
def stopC (r : List Char) : Prop :=
  r = [] ∨ ∃ c cs, r = c :: cs ∧ constBad c = true

/-- The whitespace-prefixed argument words of a command, as they appear in
the input text: each argument is preceded by a single space. -/
def argsTail : List (List Char) → List Char → List Char
  | [], r => r
  | a :: rest, r => ' ' :: (a ++ argsTail rest r)

/-- The per-pair hypothesis of the history round trip: no comma and no line
feed in either field, and the time field does not end in a carriage
return. -/
def recordOK (p : List Char × List Char) : Prop :=
  (∀ c ∈ p.1, ¬ c = ',' ∧ ¬ c = '\n') ∧
  (∀ c ∈ p.2, ¬ c = ',' ∧ ¬ c = '\n') ∧
  endsWithCR p.2 = false

instance (p : List Char × List Char) : Decidable (recordOK p) := by
  unfold recordOK; infer_instance

/-! ## Lemmas about the combinator primitives -/

theorem spanP_keep_stop (keep : Char → Bool) (w r : List Char)
    (hw : ∀ c ∈ w, keep c = true)
    (hr : r = [] ∨ ∃ c cs, r = c :: cs ∧ keep c = false) :
    spanP keep (w ++ r) = (w, r) := by
  induction w with
  | nil =>
    rcases hr with h | ⟨c, cs, h, hc⟩
    · simp [h, spanP]
    · simp [h, spanP, hc]
  | cons a w ih =>
    have ha : keep a = true := hw a (List.mem_cons_self a w)
    have ih' := ih (fun c hc => hw c (List.mem_cons_of_mem a hc))
    simp [spanP, ha, ih']

theorem isNotP_exact (bad : Char → Bool) (w r : List Char)
    (hw : w ≠ []) (hall : ∀ c ∈ w, bad c = false)
    (hr : r = [] ∨ ∃ c cs, r = c :: cs ∧ bad c = true) :
    isNotP bad (w ++ r) = some (r, w) := by
  have hspan : spanP (fun c => !(bad c)) (w ++ r) = (w, r) := by
    apply spanP_keep_stop
    · intro c hc; simp [hall c hc]
    · rcases hr with h | ⟨c, cs, h, hc⟩
      · exact Or.inl h
      · exact Or.inr ⟨c, cs, h, by simp [hc]⟩
  rcases List.exists_cons_of_ne_nil hw with ⟨x, w', hw'⟩
  subst hw'
  rw [List.cons_append] at hspan
  simp [isNotP, hspan]

theorem spanP_stop (keep : Char → Bool) (r : List Char)
    (hr : r = [] ∨ ∃ c cs, r = c :: cs ∧ keep c = false) :
    spanP keep r = ([], r) := by
  have := spanP_keep_stop keep [] r (by intro c hc; cases hc) hr
  simpa using this

theorem multispace0_cons_ms (c : Char) (t : List Char) (h : isMS c = true) :
    multispace0 (c :: t) = multispace0 t := by
  simp [multispace0, spanP, h]

theorem multispace0_stop (r : List Char)
    (hr : r = [] ∨ ∃ c cs, r = c :: cs ∧ isMS c = false) :
    multispace0 r = r := by
  simp [multispace0, spanP_stop isMS r hr]

theorem spaces0_cons_space (t : List Char) :
    spaces0 (' ' :: t) = spaces0 t := by
  simp [spaces0, spanP]

theorem spaces0_stop (r : List Char)
    (hr : r = [] ∨ ∃ c cs, r = c :: cs ∧ (c == ' ') = false) :
    spaces0 r = r := by
  simp [spaces0, spanP_stop _ r hr]

theorem tagP_val {t s r k : List Char} (h : tagP t s = some (r, k)) : k = t := by
  unfold tagP at h
  cases htag : tagAux t s with
  | none => simp [htag] at h
  | some rest => simp [htag] at h; exact h.2.symm

theorem tagP_nil_none (t : List Char) (ht : t ≠ []) : tagP t [] = none := by
  rcases List.exists_cons_of_ne_nil ht with ⟨x, t', h⟩
  subst h
  simp [tagP, tagAux]

theorem tagP_single_none (q c : Char) (cs : List Char) (h : ¬ c = q) :
    tagP [q] (c :: cs) = none := by
  simp [tagP, tagAux, h]

/-! ## Lemmas about the `many1` loop -/

theorem manyLoopF_congr {α : Type} (p : List Char → Option (List Char × α)) :
    ∀ f g s, s.length < f → s.length < g → manyLoopF p f s = manyLoopF p g s := by
  intro f
  induction f with
  | zero => intro g s h; omega
  | succ f ih =>
    intro g s hf hg
    cases g with
    | zero => omega
    | succ g =>
      simp only [manyLoopF]
      cases hp : p s with
      | none => rfl
      | some r =>
        obtain ⟨s', a⟩ := r
        by_cases hlt : s'.length < s.length
        · simp only [hlt, if_true]
          rw [ih g s' (by omega) (by omega)]
        · simp only [hlt, if_false]

theorem runManyLoop_stop {α : Type} (p : List Char → Option (List Char × α))
    (s : List Char) (h : p s = none) : runManyLoop p s = some (s, []) := by
  simp [runManyLoop, manyLoopF, h]

theorem runManyLoop_step {α : Type} (p : List Char → Option (List Char × α))
    (s s' : List Char) (a : α) (hp : p s = some (s', a))
    (hlt : s'.length < s.length) :
    runManyLoop p s =
      match runManyLoop p s' with
      | some (s'', as) => some (s'', a :: as)
      | none => none := by
  unfold runManyLoop
  conv_lhs => rw [manyLoopF]
  simp only [hp, hlt, if_true]
  rw [manyLoopF_congr p s.length (s'.length + 1) s' (by omega) (by omega)]

theorem runMany1_stop {α : Type} (p : List Char → Option (List Char × α))
    (s : List Char) (h : p s = none) : runMany1 p s = none := by
  simp [runMany1, h]

theorem runMany1_step {α : Type} (p : List Char → Option (List Char × α))
    (s s1 : List Char) (a : α) (hp : p s = some (s1, a)) :
    runMany1 p s =
      match runManyLoop p s1 with
      | some (s2, as) => some (s2, a :: as)
      | none => none := by
  unfold runMany1 runManyLoop
  rw [hp]

theorem manyLoopF_all {α : Type} (p : List Char → Option (List Char × α))
    (P : α → Prop) (H : ∀ s s' a, p s = some (s', a) → P a) :
    ∀ f s r l, manyLoopF p f s = some (r, l) → ∀ x ∈ l, P x := by
  intro f
  induction f with
  | zero => intro s r l h; simp [manyLoopF] at h
  | succ f ih =>
    intro s r l h
    rw [manyLoopF] at h
    cases hp : p s with
    | none =>
      rw [hp] at h
      simp at h
      obtain ⟨-, h2⟩ := h
      subst h2
      intro x hx
      cases hx
    | some v =>
      obtain ⟨s', a⟩ := v
      rw [hp] at h
      by_cases hlt : s'.length < s.length
      · simp only [hlt, if_true] at h
        cases hrec : manyLoopF p f s' with
        | none => rw [hrec] at h; simp at h
        | some w =>
          obtain ⟨s'', as⟩ := w
          rw [hrec] at h
          simp at h
          rcases h with ⟨-, h⟩
          intro x hx
          rw [← h] at hx
          rcases List.mem_cons.mp hx with hx | hx
          · rw [hx]; exact H s s' a hp
          · exact ih s' s'' as hrec x hx
      · simp [hlt] at h

theorem runMany1_all {α : Type} (p : List Char → Option (List Char × α))
    (P : α → Prop) (H : ∀ s s' a, p s = some (s', a) → P a)
    (s r : List Char) (l : List α) (h : runMany1 p s = some (r, l)) :
    ∀ x ∈ l, P x := by
  rw [runMany1] at h
  cases hp : p s with
  | none => rw [hp] at h; simp at h
  | some v =>
    obtain ⟨s1, a⟩ := v
    rw [hp] at h
    dsimp only at h
    cases hrec : manyLoopF p (s1.length + 1) s1 with
    | none => rw [hrec] at h; simp at h
    | some w =>
      obtain ⟨s2, as⟩ := w
      rw [hrec] at h
      simp at h
      rcases h with ⟨-, h⟩
      intro x hx
      rw [← h] at hx
      rcases List.mem_cons.mp hx with hx | hx
      · rw [hx]; exact H s s1 a hp
      · exact manyLoopF_all p P H (s1.length + 1) s1 s2 as hrec x hx

theorem destFileName_eq (dest : Node) (n : List Char)
    (h : destFileName dest = some n) : dest = Node.identifier n := by
  cases dest <;> simp_all [destFileName]

theorem runMany1_ne_nil {α : Type} (p : List Char → Option (List Char × α))
    (s r : List Char) (l : List α) (h : runMany1 p s = some (r, l)) :
    l ≠ [] := by
  rw [runMany1] at h
  cases hp : p s with
  | none => rw [hp] at h; simp at h
  | some v =>
    obtain ⟨s1, a⟩ := v
    rw [hp] at h
    dsimp only at h
    cases hrec : manyLoopF p (s1.length + 1) s1 with
    | none => rw [hrec] at h; simp at h
    | some w =>
      obtain ⟨s2, as⟩ := w
      rw [hrec] at h
      simp at h
      rcases h with ⟨-, h⟩
      simp [← h]

/-! ## Shape lemmas: what kind of node each parser can produce -/

theorem altP_cases {α : Type} {p q : List Char → Option (List Char × α)}
    {s r : List Char} {a : α} (h : altP p q s = some (r, a)) :
    p s = some (r, a) ∨ q s = some (r, a) := by
  rw [altP] at h
  cases hp : p s with
  | none => rw [hp] at h; exact Or.inr h
  | some v =>
    rw [hp] at h
    dsimp only at h
    exact Or.inl h

theorem parse_constant_ident {s r : List Char} {n : Node}
    (h : parse_constant s = some (r, n)) : isIdent n = true := by
  rw [parse_constant] at h
  cases hq : isNotP constBad s with
  | none => rw [hq] at h; simp at h
  | some v =>
    obtain ⟨rest, tk⟩ := v
    rw [hq] at h
    simp at h
    rw [← h.2]
    rfl

theorem parse_identifier_ident {s r : List Char} {n : Node}
    (h : parse_identifier s = some (r, n)) : isIdent n = true := by
  rw [parse_identifier] at h
  cases h1 : delimQ '"' s with
  | some v =>
    obtain ⟨rest, tk⟩ := v
    rw [h1] at h
    simp at h
    rw [← h.2]
    rfl
  | none =>
    rw [h1] at h
    dsimp only at h
    cases h2 : delimQ '\'' s with
    | none => rw [h2] at h; simp at h
    | some v =>
      obtain ⟨rest, tk⟩ := v
      rw [h2] at h
      simp at h
      rw [← h.2]
      rfl

theorem parse_not_space_ident {s r : List Char} {n : Node}
    (h : parse_not_space s = some (r, n)) : isIdent n = true := by
  rw [parse_not_space] at h
  cases hq : isNotP notSpaceBad s with
  | none => rw [hq] at h; simp at h
  | some v =>
    obtain ⟨rest, tk⟩ := v
    rw [hq] at h
    simp at h
    rw [← h.2]
    rfl

theorem parse_filename_with_dot_ident {s r : List Char} {n : Node}
    (h : parse_filename_with_dot s = some (r, n)) : isIdent n = true := by
  rw [parse_filename_with_dot] at h
  cases hq : runMany1 dotOrAlnum s with
  | none => rw [hq] at h; simp at h
  | some v =>
    obtain ⟨rest, parts⟩ := v
    rw [hq] at h
    simp at h
    rw [← h.2]
    rfl

theorem parse_filename_ident {s r : List Char} {n : Node}
    (h : parse_filename s = some (r, n)) : isIdent n = true := by
  rcases altP_cases h with h | h
  · exact parse_filename_with_dot_ident h
  · exact parse_not_space_ident h

/-- The only nodes `parse_redirect_specifier` can produce are the three
non-append specifier kinds, each with an `Identifier` destination. -/
theorem parse_redirect_specifier_specWF {s r : List Char} {n : Node}
    (h : parse_redirect_specifier s = some (r, n)) : specWF n = true := by
  rw [parse_redirect_specifier] at h
  cases hq : altP (tagP ['<']) (altP (tagP ['>']) (tagP ['2', '>']))
      (multispace0 s) with
  | none => rw [hq] at h; simp at h
  | some v =>
    obtain ⟨s1, kind⟩ := v
    rw [hq] at h
    dsimp only at h
    cases hf : parse_filename (multispace0 s1) with
    | none => rw [hf] at h; simp at h
    | some w =>
      obtain ⟨rest, f⟩ := w
      rw [hf] at h
      dsimp only at h
      have hfi : isIdent f = true := parse_filename_ident hf
      by_cases h1 : kind = ['<']
      · rw [if_pos h1] at h
        simp at h
        rw [← h.2]
        simp [specWF, hfi]
      · rw [if_neg h1] at h
        by_cases h2 : kind = ['>']
        · rw [if_pos h2] at h
          simp at h
          rw [← h.2]
          simp [specWF, hfi]
        · rw [if_neg h2] at h
          by_cases h3 : kind = ['2', '>']
          · rw [if_pos h3] at h
            simp at h
            rw [← h.2]
            simp [specWF, hfi]
          · rw [if_neg h3] at h
            simp at h

theorem parse_command_arg_ident {s r : List Char} {n : Node}
    (h : parse_command_arg s = some (r, n)) : isIdent n = true := by
  rw [parse_command_arg] at h
  cases hq : altP parse_identifier parse_constant (spaces0 s) with
  | none => rw [hq] at h; simp at h
  | some v =>
    rw [hq] at h
    dsimp only at h
    obtain ⟨rest, m⟩ := v
    cases h
    rcases altP_cases hq with hq | hq
    · exact parse_identifier_ident hq
    · exact parse_constant_ident hq

theorem parse_command_shape {s r : List Char} {n : Node}
    (h : parse_command s = some (r, n)) : cmdWF n = true := by
  rw [parse_command] at h
  cases hc : parse_constant s with
  | none => rw [hc] at h; simp at h
  | some v =>
    obtain ⟨s1, cmd⟩ := v
    rw [hc] at h
    dsimp only at h
    have hcmd := parse_constant_ident hc
    cases hm : runMany1 parse_command_arg s1 with
    | none =>
      rw [hm] at h
      simp at h
      rw [← h.2]
      simp [cmdWF, hcmd]
    | some w =>
      obtain ⟨s2, args⟩ := w
      rw [hm] at h
      simp at h
      rw [← h.2]
      have hargs : ∀ x ∈ args, isIdent x = true :=
        runMany1_all parse_command_arg (fun a => isIdent a = true)
          (fun _ _ _ ha => parse_command_arg_ident ha) s1 s2 args hm
      simp only [cmdWF, hcmd, Bool.true_and, List.all_eq_true]
      exact hargs

theorem parse_bs_arg_ident {s r : List Char} {n : Node}
    (h : parse_bs_arg s = some (r, n)) : isIdent n = true := by
  rw [parse_bs_arg] at h
  rcases altP_cases h with h | h
  · exact parse_identifier_ident h
  · exact parse_constant_ident h

theorem parse_command_with_backslash_shape {s r : List Char} {n : Node}
    (h : parse_command_with_backslash s = some (r, n)) : cmdWF n = true := by
  rw [parse_command_with_backslash] at h
  cases hc : parse_constant s with
  | none => rw [hc] at h; simp at h
  | some v =>
    obtain ⟨s1, cmd⟩ := v
    rw [hc] at h
    dsimp only at h
    have hcmd := parse_constant_ident hc
    cases hm : runMany1 parse_bs_arg s1 with
    | none => rw [hm] at h; simp at h
    | some w =>
      obtain ⟨s2, args⟩ := w
      rw [hm] at h
      simp at h
      rw [← h.2]
      have hargs : ∀ x ∈ args, isIdent x = true :=
        runMany1_all parse_bs_arg (fun a => isIdent a = true)
          (fun _ _ _ ha => parse_bs_arg_ident ha) s1 s2 args hm
      simp only [cmdWF, hcmd, Bool.true_and, List.all_eq_true]
      exact hargs

theorem parse_comment_shape {s r : List Char} {n : Node}
    (h : parse_comment s = some (r, n)) : ∃ t, n = Node.comment t := by
  rw [parse_comment] at h
  cases ht : tagP ['#'] s with
  | none => rw [ht] at h; simp at h
  | some v =>
    obtain ⟨s1, tg⟩ := v
    rw [ht] at h
    dsimp only at h
    split at h
    · simp at h; exact ⟨_, h.2.symm⟩
    · simp at h
    · simp at h; exact ⟨_, h.2.symm⟩

theorem parse_exec_script_shape {s r : List Char} {n : Node}
    (h : parse_exec_script s = some (r, n)) :
    ∃ f, n = Node.execScript f ∧ isIdent f = true := by
  rw [parse_exec_script] at h
  cases ht : tagP ['.', '/'] s with
  | none => rw [ht] at h; simp at h
  | some v =>
    obtain ⟨s1, tg⟩ := v
    rw [ht] at h
    dsimp only at h
    cases hf : parse_filename s1 with
    | none => rw [hf] at h; simp at h
    | some w =>
      obtain ⟨rest, f⟩ := w
      rw [hf] at h
      simp at h
      exact ⟨f, h.2.symm, parse_filename_ident hf⟩

theorem parse_define_shape {s r : List Char} {n : Node}
    (h : parse_define s = some (r, n)) :
    ∃ v d, n = Node.define v d ∧ isIdent v = true ∧ isIdent d = true := by
  rw [parse_define] at h
  cases hc : parse_constant (multispace0 s) with
  | none => rw [hc] at h; simp at h
  | some v =>
    obtain ⟨s1, var⟩ := v
    rw [hc] at h
    dsimp only at h
    cases ht : tagP ['='] s1 with
    | none => rw [ht] at h; simp at h
    | some w =>
      obtain ⟨s2, tg⟩ := w
      rw [ht] at h
      dsimp only at h
      cases hi : parse_identifier s2 with
      | none => rw [hi] at h; simp at h
      | some u =>
        obtain ⟨rest, data⟩ := u
        rw [hi] at h
        simp at h
        exact ⟨var, data, h.2.symm, parse_constant_ident hc,
          parse_identifier_ident hi⟩

theorem parse_redirect_shape {s r : List Char} {n : Node}
    (h : parse_redirect s = some (r, n)) : stageWF n = true := by
  rw [parse_redirect] at h
  cases hc : parse_command s with
  | none => rw [hc] at h; simp at h
  | some v =>
    obtain ⟨s1, cmd⟩ := v
    rw [hc] at h
    dsimp only at h
    cases hm : runMany1 parse_redirect_specifier s1 with
    | none => rw [hm] at h; simp at h
    | some w =>
      obtain ⟨rest, dests⟩ := w
      rw [hm] at h
      simp at h
      rw [← h.2]
      have hcmd := parse_command_shape hc
      have hdests : ∀ x ∈ dests, specWF x = true :=
        runMany1_all parse_redirect_specifier (fun a => specWF a = true)
          (fun _ _ _ ha => parse_redirect_specifier_specWF ha) s1 rest dests hm
      show (cmdWF (Node.redirect cmd dests) ||
        (cmdWF cmd && dests.all specWF)) = true
      rw [show cmdWF (Node.redirect cmd dests) = false from rfl, Bool.false_or,
        hcmd, Bool.true_and, List.all_eq_true]
      exact hdests

theorem stageWF_of_cmdWF {n : Node} (h : cmdWF n = true) : stageWF n = true := by
  simp [stageWF, h]

theorem parse_pipe_elem_shape {s r : List Char} {n : Node}
    (h : parse_pipe_elem s = some (r, n)) : stageWF n = true := by
  rw [parse_pipe_elem] at h
  cases ht : tagP ['|'] (multispace0 s) with
  | none => rw [ht] at h; simp at h
  | some v =>
    obtain ⟨s1, tg⟩ := v
    rw [ht] at h
    dsimp only at h
    rcases altP_cases h with h | h
    · exact parse_redirect_shape h
    · exact stageWF_of_cmdWF (parse_command_shape h)

theorem parse_pipeline_shape {s r : List Char} {n : Node}
    (h : parse_pipeline s = some (r, n)) :
    ∃ stages, n = Node.pipeline stages ∧ stages.all stageWF = true ∧
      2 ≤ stages.length := by
  rw [parse_pipeline] at h
  cases hc : altP parse_command parse_redirect s with
  | none => rw [hc] at h; simp at h
  | some v =>
    obtain ⟨s1, first⟩ := v
    rw [hc] at h
    dsimp only at h
    cases hm : runMany1 parse_pipe_elem s1 with
    | none => rw [hm] at h; simp at h
    | some w =>
      obtain ⟨rest, others⟩ := w
      rw [hm] at h
      simp at h
      refine ⟨first :: others, h.2.symm, ?_, ?_⟩
      · have hfirst : stageWF first = true := by
          rcases altP_cases hc with hc | hc
          · exact stageWF_of_cmdWF (parse_command_shape hc)
          · exact parse_redirect_shape hc
        have hothers : ∀ x ∈ others, stageWF x = true :=
          runMany1_all parse_pipe_elem (fun a => stageWF a = true)
            (fun _ _ _ ha => parse_pipe_elem_shape ha) s1 rest others hm
        simp only [List.all_cons, hfirst, Bool.true_and, List.all_eq_true]
        exact hothers
      · have := runMany1_ne_nil parse_pipe_elem s1 rest others hm
        cases others with
        | nil => exact absurd rfl this
        | cons o os => simp

theorem stmtWF_of_stageWF {n : Node} (h : stageWF n = true) :
    stmtWF n = true := by
  cases n <;> simp_all [stmtWF, stageWF, cmdWF]

theorem parse_statement_shape {s r : List Char} {n : Node}
    (h : parse_statement s = some (r, n)) : stmtWF n = true := by
  rw [parse_statement] at h
  cases hq : altP parse_comment
      (altP parse_redirect
        (altP parse_exec_script
          (altP parse_define
            (altP parse_pipeline
              (altP parse_command_with_backslash parse_command)))))
      (multispace0 s) with
  | none => rw [hq] at h; simp at h
  | some v =>
    obtain ⟨s1, m⟩ := v
    rw [hq] at h
    simp at h
    rw [← h.2]
    rcases altP_cases hq with hc | hq
    · obtain ⟨t, ht⟩ := parse_comment_shape hc
      rw [ht]; rfl
    rcases altP_cases hq with hc | hq
    · exact stmtWF_of_stageWF (parse_redirect_shape hc)
    rcases altP_cases hq with hc | hq
    · obtain ⟨f, hf, hfi⟩ := parse_exec_script_shape hc
      rw [hf]; simpa [stmtWF] using hfi
    rcases altP_cases hq with hc | hq
    · obtain ⟨vv, dd, hvd, hv, hd⟩ := parse_define_shape hc
      rw [hvd]; simp [stmtWF, hv, hd]
    rcases altP_cases hq with hc | hq
    · obtain ⟨stages, hst, hall, -⟩ := parse_pipeline_shape hc
      rw [hst]; simpa [stmtWF] using hall
    rcases altP_cases hq with hc | hc
    · exact stmtWF_of_stageWF (stageWF_of_cmdWF
        (parse_command_with_backslash_shape hc))
    · exact stmtWF_of_stageWF (stageWF_of_cmdWF (parse_command_shape hc))

theorem parse_stmt_semi_shape {s r : List Char} {n : Node}
    (h : parse_stmt_semi s = some (r, n)) : stmtWF n = true := by
  rw [parse_stmt_semi] at h
  cases hq : parse_statement s with
  | none => rw [hq] at h; simp at h
  | some v =>
    obtain ⟨s1, stmt⟩ := v
    rw [hq] at h
    dsimp only at h
    have hs := parse_statement_shape hq
    cases ht : tagP [';'] s1 with
    | none => rw [ht] at h; simp at h; rw [← h.2]; exact hs
    | some w =>
      obtain ⟨s2, tg⟩ := w
      rw [ht] at h
      simp at h
      rw [← h.2]
      exact hs

/-! ## Exact-parse lemmas for bareword command and pipeline texts -/

theorem bareChar_parts {c : Char} (h : bareChar c = true) :
    constBad c = false ∧ ¬ c = '"' ∧ ¬ c = '\'' ∧ ¬ c = '\t' ∧ ¬ c = '\r' := by
  have h' := h
  simp only [bareChar, Bool.and_eq_true, Bool.not_eq_true',
    beq_eq_false_iff_ne, ne_eq] at h'
  obtain ⟨⟨⟨⟨h1, h2⟩, h3⟩, h4⟩, h5⟩ := h'
  exact ⟨h1, h2, h3, h4, h5⟩

theorem bareChar_not_space {c : Char} (h : bareChar c = true) : ¬ c = ' ' := by
  intro hc
  subst hc
  exact absurd h (by decide)

theorem bareChar_not_ms {c : Char} (h : bareChar c = true) : isMS c = false := by
  obtain ⟨-, -, -, h4, h5⟩ := bareChar_parts h
  have hsp := bareChar_not_space h
  have hnl : ¬ c = '\n' := by intro hc; subst hc; exact absurd h (by decide)
  simp [isMS, hsp, hnl, h4, h5]

theorem parse_identifier_none_head (c : Char) (cs : List Char)
    (h1 : ¬ c = '"') (h2 : ¬ c = '\'') : parse_identifier (c :: cs) = none := by
  rw [parse_identifier]
  rw [show delimQ '"' (c :: cs) = none from by
    rw [delimQ, tagP_single_none '"' c cs h1]]
  dsimp only
  rw [show delimQ '\'' (c :: cs) = none from by
    rw [delimQ, tagP_single_none '\'' c cs h2]]

theorem parse_constant_exact (w r : List Char) (hw : w ≠ [])
    (hbw : ∀ c ∈ w, constBad c = false) (hr : stopC r) :
    parse_constant (w ++ r) = some (r, Node.identifier w) := by
  rw [parse_constant, isNotP_exact constBad w r hw hbw hr]

theorem parse_constant_none_bad (c : Char) (cs : List Char)
    (h : constBad c = true) : parse_constant (c :: cs) = none := by
  rw [parse_constant, isNotP,
    spanP_stop _ _ (Or.inr ⟨c, cs, rfl, by simp [h]⟩)]

theorem spaces0_eats (a t : List Char) (ha : a ≠ [])
    (hba : ∀ c ∈ a, bareChar c = true) :
    spaces0 (' ' :: (a ++ t)) = a ++ t := by
  rw [spaces0_cons_space]
  rcases List.exists_cons_of_ne_nil ha with ⟨x, a', hx⟩
  subst hx
  apply spaces0_stop
  refine Or.inr ⟨x, a' ++ t, by simp, ?_⟩
  have := bareChar_not_space (hba x (List.mem_cons_self x a'))
  simp [this]

theorem parse_command_arg_exact (a t : List Char) (ha : a ≠ [])
    (hba : ∀ c ∈ a, bareChar c = true) (ht : stopC t) :
    parse_command_arg (' ' :: (a ++ t)) = some (t, Node.identifier a) := by
  rcases List.exists_cons_of_ne_nil ha with ⟨x, a', hx⟩
  obtain ⟨-, hdq, hsq, -, -⟩ :=
    bareChar_parts (hba x (by rw [hx]; exact List.mem_cons_self x a'))
  rw [parse_command_arg, spaces0_eats a t ha hba]
  rw [altP]
  rw [show parse_identifier (a ++ t) = none from by
    rw [hx, List.cons_append]
    exact parse_identifier_none_head x (a' ++ t) hdq hsq]
  dsimp only
  rw [parse_constant_exact a t ha (fun c hc => (bareChar_parts (hba c hc)).1) ht]

theorem parse_command_arg_none_nil : parse_command_arg [] = none := rfl

theorem parse_command_arg_none_pipe (t : List Char) :
    parse_command_arg (' ' :: '|' :: t) = none := by
  rw [parse_command_arg, spaces0_cons_space,
    spaces0_stop ('|' :: t) (Or.inr ⟨'|', t, rfl, by decide⟩)]
  rw [altP, parse_identifier_none_head '|' t (by decide) (by decide)]
  dsimp only
  rw [parse_constant_none_bad '|' t (by decide)]

theorem stopC_argsTail (args : List (List Char)) (r : List Char)
    (hr : stopC r) : stopC (argsTail args r) := by
  cases args with
  | nil => exact hr
  | cons a rest => exact Or.inr ⟨' ', a ++ argsTail rest r, rfl, by decide⟩

theorem args_loop (args : List (List Char)) (r : List Char)
    (hargs : ∀ a ∈ args, a ≠ [] ∧ ∀ c ∈ a, bareChar c = true)
    (hr : stopC r) (hnone : parse_command_arg r = none) :
    runManyLoop parse_command_arg (argsTail args r) =
      some (r, args.map Node.identifier) := by
  induction args with
  | nil => simpa [argsTail] using runManyLoop_stop parse_command_arg r hnone
  | cons a rest ih =>
    obtain ⟨ha, hba⟩ := hargs a (List.mem_cons_self a rest)
    have hstep := parse_command_arg_exact a (argsTail rest r) ha hba
      (stopC_argsTail rest r hr)
    have hlen : (argsTail rest r).length <
        (' ' :: (a ++ argsTail rest r)).length := by
      simp [List.length_cons, List.length_append]
      omega
    rw [show argsTail (a :: rest) r = ' ' :: (a ++ argsTail rest r) from rfl]
    rw [runManyLoop_step parse_command_arg _ _ _ hstep hlen]
    rw [ih (fun q hq => hargs q (List.mem_cons_of_mem a hq))]
    rfl

theorem parse_command_exact (w : List Char) (args : List (List Char))
    (r : List Char) (hw : w ≠ []) (hbw : ∀ c ∈ w, bareChar c = true)
    (hargs : ∀ a ∈ args, a ≠ [] ∧ ∀ c ∈ a, bareChar c = true)
    (hr : stopC r) (hnone : parse_command_arg r = none) :
    parse_command (w ++ argsTail args r) =
      some (r, Node.commandStatement (Node.identifier w)
        (args.map Node.identifier)) := by
  rw [parse_command]
  rw [parse_constant_exact w (argsTail args r) hw
    (fun c hc => (bareChar_parts (hbw c hc)).1) (stopC_argsTail args r hr)]
  dsimp only
  cases args with
  | nil =>
    simp only [argsTail]
    rw [runMany1_stop parse_command_arg r hnone]
    rfl
  | cons a rest =>
    simp only [argsTail]
    obtain ⟨ha, hba⟩ := hargs a (List.mem_cons_self a rest)
    have hstep := parse_command_arg_exact a (argsTail rest r) ha hba
      (stopC_argsTail rest r hr)
    rw [runMany1_step parse_command_arg _ _ _ hstep]
    rw [args_loop rest r (fun q hq => hargs q (List.mem_cons_of_mem a hq))
      hr hnone]
    rfl

theorem parse_redirect_none_of_nil_rest (w : List Char)
    (args : List (List Char)) (hw : w ≠ [])
    (hbw : ∀ c ∈ w, bareChar c = true)
    (hargs : ∀ a ∈ args, a ≠ [] ∧ ∀ c ∈ a, bareChar c = true) :
    parse_redirect (w ++ argsTail args []) = none := by
  rw [parse_redirect]
  rw [parse_command_exact w args [] hw hbw hargs (Or.inl rfl)
    parse_command_arg_none_nil]
  dsimp only
  rw [runMany1_stop parse_redirect_specifier [] rfl]

theorem multispace0_eats_space (t : List Char) :
    multispace0 (' ' :: t) = multispace0 t :=
  multispace0_cons_ms ' ' t (by decide)

theorem multispace0_bare (a t : List Char) (ha : a ≠ [])
    (hba : ∀ c ∈ a, bareChar c = true) :
    multispace0 (a ++ t) = a ++ t := by
  rcases List.exists_cons_of_ne_nil ha with ⟨x, a', hx⟩
  subst hx
  exact multispace0_stop _ (Or.inr ⟨x, a' ++ t, by simp,
    bareChar_not_ms (hba x (List.mem_cons_self x a'))⟩)

theorem tagP_pipe (t : List Char) : tagP ['|'] ('|' :: t) = some (t, ['|']) := by
  simp [tagP, tagAux]

theorem parse_pipe_elem_exact (c2 b1 : List Char)
    (hc2 : c2 ≠ []) (hbc2 : ∀ c ∈ c2, bareChar c = true)
    (hb1 : b1 ≠ []) (hbb1 : ∀ c ∈ b1, bareChar c = true) :
    parse_pipe_elem (' ' :: '|' :: ' ' :: (c2 ++ argsTail [b1] [])) =
      some ([], Node.commandStatement (Node.identifier c2)
        [Node.identifier b1]) := by
  have hargs : ∀ a ∈ [b1], a ≠ [] ∧ ∀ c ∈ a, bareChar c = true := by
    intro a ha
    rw [List.mem_singleton] at ha
    subst ha
    exact ⟨hb1, hbb1⟩
  rw [parse_pipe_elem]
  rw [multispace0_eats_space,
    multispace0_stop _ (Or.inr ⟨'|', _, rfl, by decide⟩)]
  rw [tagP_pipe]
  dsimp only
  rw [multispace0_eats_space, multispace0_bare c2 _ hc2 hbc2]
  rw [altP]
  rw [parse_redirect_none_of_nil_rest c2 [b1] hc2 hbc2 hargs]
  dsimp only
  rw [parse_command_exact c2 [b1] [] hc2 hbc2 hargs (Or.inl rfl)
    parse_command_arg_none_nil]
  rfl

/-! ## Claim C7 — two-stage pipeline parse -/

/-- Claim C7, confirmed.  For every pipeline text `c1 a1 a2 | c2 b1` built
from nonempty bareword tokens, `parse_pipeline` consumes the whole text and
yields `Pipeline([CommandStatement(c1,[a1,a2]), CommandStatement(c2,[b1])])`
— one stage per `|`-separated segment in source order; and every `Pipeline`
node the parser can produce has at least two stages. -/
theorem pipeline_two_stage (c1 a1 a2 c2 b1 : List Char)
    (hc1 : c1 ≠ []) (hbc1 : ∀ c ∈ c1, bareChar c = true)
    (ha1 : a1 ≠ []) (hba1 : ∀ c ∈ a1, bareChar c = true)
    (ha2 : a2 ≠ []) (hba2 : ∀ c ∈ a2, bareChar c = true)
    (hc2 : c2 ≠ []) (hbc2 : ∀ c ∈ c2, bareChar c = true)
    (hb1 : b1 ≠ []) (hbb1 : ∀ c ∈ b1, bareChar c = true) :
    parse_pipeline (c1 ++ ' ' :: (a1 ++ ' ' :: (a2 ++ ' ' :: '|' :: ' ' ::
        (c2 ++ ' ' :: b1)))) =
      some ([], Node.pipeline
        [Node.commandStatement (Node.identifier c1)
          [Node.identifier a1, Node.identifier a2],
          Node.commandStatement (Node.identifier c2)
            [Node.identifier b1]]) ∧
    ∀ (s r : List Char) (n : Node), parse_pipeline s = some (r, n) →
      ∃ stages, n = Node.pipeline stages ∧ 2 ≤ stages.length := by
  constructor
  · have hargs12 : ∀ a ∈ [a1, a2], a ≠ [] ∧ ∀ c ∈ a, bareChar c = true := by
      intro a ha
      rcases List.mem_cons.mp ha with ha | ha
      · subst ha; exact ⟨ha1, hba1⟩
      · rw [List.mem_singleton] at ha
        subst ha
        exact ⟨ha2, hba2⟩
    rw [show c1 ++ ' ' :: (a1 ++ ' ' :: (a2 ++ ' ' :: '|' :: ' ' ::
        (c2 ++ ' ' :: b1))) =
      c1 ++ argsTail [a1, a2]
        (' ' :: '|' :: ' ' :: (c2 ++ argsTail [b1] [])) from by
      simp [argsTail]]
    rw [parse_pipeline]
    rw [altP]
    rw [parse_command_exact c1 [a1, a2]
      (' ' :: '|' :: ' ' :: (c2 ++ argsTail [b1] [])) hc1 hbc1 hargs12
      (Or.inr ⟨' ', _, rfl, by decide⟩) (parse_command_arg_none_pipe _)]
    dsimp only
    rw [runMany1_step parse_pipe_elem _ _ _
      (parse_pipe_elem_exact c2 b1 hc2 hbc2 hb1 hbb1)]
    rw [runManyLoop_stop parse_pipe_elem [] rfl]
    rfl
  · intro s r n h
    obtain ⟨st, he, -, hl⟩ := parse_pipeline_shape h
    exact ⟨st, he, hl⟩

/-- Claim C7, witness: the theorem applied at the concrete text
`c1 a1 a2 | c2 b1`. -/
theorem pipeline_two_stage_witness :
    parse_pipeline ("c1".toList ++ ' ' :: ("a1".toList ++ ' ' ::
        ("a2".toList ++ ' ' :: '|' :: ' ' ::
          ("c2".toList ++ ' ' :: "b1".toList)))) =
      some ([], Node.pipeline
        [Node.commandStatement (Node.identifier "c1".toList)
          [Node.identifier "a1".toList, Node.identifier "a2".toList],
          Node.commandStatement (Node.identifier "c2".toList)
            [Node.identifier "b1".toList]]) :=
  (pipeline_two_stage "c1".toList "a1".toList "a2".toList "c2".toList
    "b1".toList (by decide) (by decide) (by decide) (by decide) (by decide)
    (by decide) (by decide) (by decide) (by decide) (by decide)).1

/-! ## Claim C4 — the redirection operators the parser accepts -/

/-- Claim C4, counterexample.  The claim asserts that the parser accepts
`>>` and `2>>` and produces append-mode redirect nodes.  The `Node` enum has
no append variants at all, and `parse_redirect_specifier` matches only `<`,
`>`, `2>` : on `>> out.txt` the `>` tag leaves `> out.txt`, whose leading
`>` no filename parser accepts, so the specifier fails (likewise `2>>`), and
`cmd >> out.txt` parses as the bare command `cmd` with `>> out.txt` left
unconsumed. -/
theorem redirect_specifier_kinds_cex :
    parse_redirect_specifier ">> out.txt".toList = none ∧
    parse_redirect_specifier "2>> out.txt".toList = none ∧
    parse_node "cmd >> out.txt".toList =
      some (">> out.txt".toList, Node.compoundStatement
        [Node.commandStatement (Node.identifier "cmd".toList) []]) :=
  ⟨rfl, rfl, rfl⟩

/-- Claim C4, amended.  The parser accepts exactly three redirection
operators — `<`, `>`, `2>` — producing `RedirectInput`, `RedirectOutput`
and `RedirectErrorOutput` nodes with `Identifier` destinations; every node a
redirect specifier parse can return is of one of these three kinds, so no
append-mode operator (`>>`, `2>>`) exists. -/
theorem redirect_specifier_kinds :
    parse_redirect_specifier "< infile".toList =
      some ([], Node.redirectInput (Node.identifier "infile".toList)) ∧
    parse_redirect_specifier "> outfile".toList =
      some ([], Node.redirectOutput (Node.identifier "outfile".toList)) ∧
    parse_redirect_specifier "2> errfile".toList =
      some ([], Node.redirectErrorOutput (Node.identifier "errfile".toList)) ∧
    ∀ (s r : List Char) (n : Node),
      parse_redirect_specifier s = some (r, n) → specWF n = true :=
  ⟨rfl, rfl, rfl, fun _ _ _ h => parse_redirect_specifier_specWF h⟩

/-- Claim C4, witness: the amended theorem's classification applied at a
concrete accepted specifier. -/
theorem redirect_specifier_kinds_witness :
    specWF (Node.redirectInput (Node.identifier "infile".toList)) = true :=
  redirect_specifier_kinds.2.2.2 "< infile".toList []
    (Node.redirectInput (Node.identifier "infile".toList)) rfl

/-! ## Claim C1 — variable definition and reference resolution -/

/-- Claim C1, counterexample.  The claim asserts that evaluating a `Define`
node inserts the name-to-value entry into a Variable Store from which a
later `Reference` resolution reads it back.  The code has no store: the
`Node` enum of parse.rs has no `Reference` variant, the `Evaluator` owns only
`now_process` and `pipe_commands`, and `eval_define` (evaluator.rs lines
299-309) only prints `var = value`.  Concretely, `var="value"` parses to the
expected `Define` node, but evaluating it returns the evaluator state
unchanged — nothing is inserted anywhere — and its sole effect is the
printed line. -/
theorem eval_define_no_store_cex :
    parse_node "var=\"value\"".toList =
      some ([], Node.compoundStatement
        [Node.define (Node.identifier "var".toList)
          (Node.identifier "value".toList)]) ∧
    eval_define (Node.identifier "var".toList) (Node.identifier "value".toList)
        ⟨ProcessMode.noPipe, []⟩ =
      (⟨ProcessMode.noPipe, []⟩, "var = value\n\n".toList) :=
  ⟨rfl, rfl⟩

/-- Claim C1, amended.  `var="value"` parses to
`Define(Identifier("var"), Identifier("value"))`; evaluating the `Define`
prints `name = value` and leaves the evaluator state unchanged — no binding
is created, and the AST has no `Reference` node kind that could read one
back. -/
theorem eval_define_no_store :
    parse_node "var=\"value\"".toList =
      some ([], Node.compoundStatement
        [Node.define (Node.identifier "var".toList)
          (Node.identifier "value".toList)]) ∧
    ∀ (var data : Node) (st : EvaluatorState),
      (eval_define var data st).1 = st :=
  ⟨rfl, fun _ _ _ => rfl⟩

/-- Claim C1, witness: the amended theorem applied at a concrete `Define`
and evaluator state. -/
theorem eval_define_no_store_witness :
    (eval_define (Node.identifier "x".toList) (Node.identifier "1".toList)
      ⟨ProcessMode.pipe, [["ls".toList]]⟩).1 = ⟨ProcessMode.pipe, [["ls".toList]]⟩ :=
  eval_define_no_store.2 (Node.identifier "x".toList)
    (Node.identifier "1".toList) ⟨ProcessMode.pipe, [["ls".toList]]⟩

/-! ## Claim C2 — a failing redirect target is not confined -/

/-- Claim C2, counterexample.  The claim asserts that when a redirect target
cannot be opened, the statement's evaluation returns normally and the
session continues.  In `eval_redirect_branch` (evaluator.rs lines 388-422)
the failing `File::open(..).unwrap()` panics — embedded as `none` — so the
evaluation of the `Redirect` statement produces no launch request and no
normal return: on a file system refusing every open/create, a `cat <
missing.txt` redirect evaluation is the panic value. -/
theorem redirect_io_failure_panics_cex :
    eval_redirect ⟨fun _ => false, fun _ => false⟩
      (Node.commandStatement (Node.identifier "cat".toList) [])
      [Node.redirectInput (Node.identifier "missing.txt".toList)] = none :=
  rfl

/-- Claim C2, amended.  A redirect destination whose file cannot be opened
(input) or created (output, error output) makes `eval_redirect_branch` — and
with it the whole `eval_redirect` of the statement — panic (`unwrap` on an
`Err`), embedded as `none`: the failure is not confined to the stage and no
normal per-stage error is reported. -/
theorem redirect_io_failure_panics (fs : FileSys) (n : List Char)
    (ds : List Node) (b : Bindings) :
    (fs.canOpen n = false →
      eval_redirect_branch fs (Node.redirectInput (Node.identifier n) :: ds) b
        = none) ∧
    (fs.canCreate n = false →
      eval_redirect_branch fs (Node.redirectOutput (Node.identifier n) :: ds) b
        = none) ∧
    (fs.canCreate n = false →
      eval_redirect_branch fs
        (Node.redirectErrorOutput (Node.identifier n) :: ds) b = none) ∧
    (∀ cmd : Node, fs.canOpen n = false →
      eval_redirect fs cmd (Node.redirectInput (Node.identifier n) :: ds)
        = none) := by
  refine ⟨?_, ?_, ?_, ?_⟩
  · intro h; simp [eval_redirect_branch, destFileName, h]
  · intro h; simp [eval_redirect_branch, destFileName, h]
  · intro h; simp [eval_redirect_branch, destFileName, h]
  · intro cmd h; simp [eval_redirect, eval_redirect_branch, destFileName, h]

/-- Claim C2, witness: the amended theorem applied on a file system that
refuses every open. -/
theorem redirect_io_failure_panics_witness :
    eval_redirect_branch ⟨fun _ => false, fun _ => true⟩
      [Node.redirectInput (Node.identifier "missing.txt".toList)]
      ⟨StdioBinding.inherit, StdioBinding.inherit, StdioBinding.inherit⟩
      = none :=
  (redirect_io_failure_panics ⟨fun _ => false, fun _ => true⟩
    "missing.txt".toList []
    ⟨StdioBinding.inherit, StdioBinding.inherit, StdioBinding.inherit⟩).1 rfl

/-! ## Claim C3 — whole-input consumption -/

/-- Claim C3, counterexample.  The claim asserts that the parse either
consumes the entire input or fails as a whole, so the caller never receives
an AST of a proper prefix.  On `cmd =x` the parser consumes only `cmd ` and
succeeds with the remainder `=x`; `execute_commands` (rsh.rs line 1059)
destructures the result as `Ok((_, node))`, discarding that remainder, and
evaluates the prefix AST. -/
theorem parse_leftover_ignored_cex :
    parse_node "cmd =x".toList =
      some ("=x".toList, Node.compoundStatement
        [Node.commandStatement (Node.identifier "cmd".toList) []]) ∧
    "=x".toList ≠ ([] : List Char) ∧
    execute_commands_ast "cmd =x".toList =
      some (Node.compoundStatement
        [Node.commandStatement (Node.identifier "cmd".toList) []]) :=
  ⟨rfl, by decide, rfl⟩

/-- Claim C3, amended.  On success `parse_node` returns a
`CompoundStatement` AST for the longest parsable prefix, together with the
unconsumed remainder; `execute_commands` ignores the remainder, so when the
input has trailing unparsable text the evaluator does receive the AST of a
proper prefix (concretely on `cmd =x`, whose remainder `=x` is dropped). -/
theorem parse_leftover_ignored :
    (∀ (input r : List Char) (n : Node), parse_node input = some (r, n) →
      ∃ stmts, n = Node.compoundStatement stmts) ∧
    (∀ (input r : List Char) (n : Node), parse_node input = some (r, n) →
      execute_commands_ast input = some n) ∧
    parse_node "cmd =x".toList =
      some ("=x".toList, Node.compoundStatement
        [Node.commandStatement (Node.identifier "cmd".toList) []]) := by
  refine ⟨?_, ?_, rfl⟩
  · intro input r n h
    rw [parse_node, parse_compound_statement] at h
    cases hq : altP (runMany1 parse_stmt_semi) (runMany1 parse_statement) input with
    | none => rw [hq] at h; simp at h
    | some v =>
      obtain ⟨rest, stmts⟩ := v
      rw [hq] at h
      simp at h
      exact ⟨stmts, h.2.symm⟩
  · intro input r n h
    rw [execute_commands_ast, h]

/-- Claim C3, witness: the amended theorem applied to the parse of
`echo ok`. -/
theorem parse_leftover_ignored_witness :
    execute_commands_ast "echo ok".toList =
      some (Node.compoundStatement
        [Node.commandStatement (Node.identifier "echo".toList)
          [Node.identifier "ok".toList]]) :=
  parse_leftover_ignored.2.1 "echo ok".toList [] _ rfl

/-! ## Claim C5 — resolution of non-`Identifier` arguments -/

/-- Claim C5, counterexample.  The claim asserts that a non-`Identifier`
argument node is silently dropped, leaving no entry in the resolved vector.
In `eval_command` (evaluator.rs lines 271-278) the `_ => Default::default()`
arm maps such a node to the empty string *in place*: resolving
`echo a <comment> b` yields a vector of length 4 whose third entry is `""`,
not the 3-entry vector the claim describes. -/
theorem resolver_keeps_nonident_cex :
    eval_command_resolve (Node.identifier "echo".toList)
      [Node.identifier "a".toList, Node.comment " note".toList,
        Node.identifier "b".toList] =
      ["echo".toList, "a".toList, [], "b".toList] ∧
    ["echo".toList, "a".toList, [], "b".toList] ≠
      ["echo".toList, "a".toList, "b".toList] :=
  ⟨rfl, by decide⟩

/-- Claim C5, amended.  Argument resolution maps each `Identifier` argument
to its literal text and every other argument node — there is no `Reference`
kind — to the empty string, in place and without error: the resolved vector
has exactly one entry per argument node, in the original order, with the
command's text first. -/
theorem resolver_keeps_nonident (cmd : Node) (args : List Node) :
    (eval_command_resolve cmd args).length = args.length + 1 ∧
    (eval_command_resolve cmd args).get? 0 = some (nodeToText cmd) ∧
    (∀ i : Nat, (eval_command_resolve cmd args).get? (i + 1) =
      (args.get? i).map nodeToText) ∧
    (∀ t : List Char, nodeToText (Node.identifier t) = t) ∧
    (∀ n : Node, isIdent n = false → nodeToText n = []) := by
  refine ⟨by simp [eval_command_resolve], rfl, ?_, fun t => rfl, ?_⟩
  · intro i
    simp [eval_command_resolve]
  · intro n hn
    cases n <;> simp_all [isIdent, nodeToText]

/-- Claim C5, witness: the amended theorem applied at a concrete command
with a non-`Identifier` argument. -/
theorem resolver_keeps_nonident_witness :
    (eval_command_resolve (Node.identifier "echo".toList)
      [Node.comment " c".toList]).get? 1 =
      ([Node.comment " c".toList].get? 0).map nodeToText :=
  (resolver_keeps_nonident (Node.identifier "echo".toList)
    [Node.comment " c".toList]).2.2.1 0

/-! ## Claim C6 — last redirect specifier wins -/

/-- Claim C6, confirmed.  `eval_redirect_branch` walks the destination list
in order and overwrites the binding of the targeted stream each time, so
when it returns normally the final binding of each stream is the file named
by the *last* specifier for that stream in the list (or the incoming binding
when the list has none); earlier specifiers for the same stream do not
influence the final binding. -/
theorem redirect_last_wins (fs : FileSys) (ds : List Node) :
    ∀ b b' : Bindings, eval_redirect_branch fs ds b = some b' →
      b'.stdin = (match lastInputDest ds with
        | some n => StdioBinding.file n
        | none => b.stdin) ∧
      b'.stdout = (match lastOutputDest ds with
        | some n => StdioBinding.file n
        | none => b.stdout) ∧
      b'.stderr = (match lastErrorDest ds with
        | some n => StdioBinding.file n
        | none => b.stderr) := by
  induction ds with
  | nil =>
    intro b b' h
    simp [eval_redirect_branch] at h
    subst h
    exact ⟨rfl, rfl, rfl⟩
  | cons d ds ih =>
    intro b b' h
    cases d
    case redirectInput dest =>
      cases hdf : destFileName dest with
      | none => simp [eval_redirect_branch, hdf] at h
      | some n =>
        have hdest := destFileName_eq dest n hdf
        subst hdest
        simp only [eval_redirect_branch, destFileName] at h
        by_cases hop : fs.canOpen n
        · rw [if_pos hop] at h
          obtain ⟨h1, h2, h3⟩ := ih _ _ h
          refine ⟨?_, ?_, ?_⟩
          · rw [h1]; cases hl : lastInputDest ds <;> simp [lastInputDest, hl]
          · rw [h2]; cases hl : lastOutputDest ds <;> simp [lastOutputDest, hl]
          · rw [h3]; cases hl : lastErrorDest ds <;> simp [lastErrorDest, hl]
        · rw [if_neg hop] at h; simp at h
    case redirectOutput dest =>
      cases hdf : destFileName dest with
      | none => simp [eval_redirect_branch, hdf] at h
      | some n =>
        have hdest := destFileName_eq dest n hdf
        subst hdest
        simp only [eval_redirect_branch, destFileName] at h
        by_cases hop : fs.canCreate n
        · rw [if_pos hop] at h
          obtain ⟨h1, h2, h3⟩ := ih _ _ h
          refine ⟨?_, ?_, ?_⟩
          · rw [h1]; cases hl : lastInputDest ds <;> simp [lastInputDest, hl]
          · rw [h2]; cases hl : lastOutputDest ds <;> simp [lastOutputDest, hl]
          · rw [h3]; cases hl : lastErrorDest ds <;> simp [lastErrorDest, hl]
        · rw [if_neg hop] at h; simp at h
    case redirectErrorOutput dest =>
      cases hdf : destFileName dest with
      | none => simp [eval_redirect_branch, hdf] at h
      | some n =>
        have hdest := destFileName_eq dest n hdf
        subst hdest
        simp only [eval_redirect_branch, destFileName] at h
        by_cases hop : fs.canCreate n
        · rw [if_pos hop] at h
          obtain ⟨h1, h2, h3⟩ := ih _ _ h
          refine ⟨?_, ?_, ?_⟩
          · rw [h1]; cases hl : lastInputDest ds <;> simp [lastInputDest, hl]
          · rw [h2]; cases hl : lastOutputDest ds <;> simp [lastOutputDest, hl]
          · rw [h3]; cases hl : lastErrorDest ds <;> simp [lastErrorDest, hl]
        · rw [if_neg hop] at h; simp at h
    all_goals
      simp only [eval_redirect_branch] at h
      obtain ⟨h1, h2, h3⟩ := ih _ _ h
      refine ⟨?_, ?_, ?_⟩
      · rw [h1]; cases hl : lastInputDest ds <;> simp [lastInputDest, hl]
      · rw [h2]; cases hl : lastOutputDest ds <;> simp [lastOutputDest, hl]
      · rw [h3]; cases hl : lastErrorDest ds <;> simp [lastErrorDest, hl]

/-- Claim C6, witness: on `cmd > a.txt > b.txt` the launched command's
standard output is bound to `b.txt`, the file named by the last output
specifier. -/
theorem redirect_last_wins_witness :
    Bindings.stdout
        ⟨StdioBinding.inherit, StdioBinding.file "b.txt".toList,
          StdioBinding.inherit⟩ =
      (match lastOutputDest
          [Node.redirectOutput (Node.identifier "a.txt".toList),
            Node.redirectOutput (Node.identifier "b.txt".toList)] with
        | some n => StdioBinding.file n
        | none => StdioBinding.inherit) :=
  (redirect_last_wins ⟨fun _ => true, fun _ => true⟩
    [Node.redirectOutput (Node.identifier "a.txt".toList),
      Node.redirectOutput (Node.identifier "b.txt".toList)]
    ⟨StdioBinding.inherit, StdioBinding.inherit, StdioBinding.inherit⟩
    ⟨StdioBinding.inherit, StdioBinding.file "b.txt".toList,
      StdioBinding.inherit⟩ rfl).2.1

/-! ## Claim C8 — orchestrator on an empty argument vector -/

/-- Claim C8, counterexample.  The claim asserts that `rsh_execute` on an
empty argument vector returns success as a no-op; the code's
`args.get(0)` miss returns `Err(RshError::new("Failed to get args"))`
(evaluator.rs line 255). -/
theorem rsh_execute_empty_error_cex :
    rsh_execute ProcessMode.noPipe [] =
      Except.error ⟨"Failed to get args".toList⟩ :=
  rfl

/-- Claim C8, amended.  Invoked with an empty argument vector,
`rsh_execute` returns the error `Failed to get args` — not success — in
both process modes. -/
theorem rsh_execute_empty_error (mode : ProcessMode) :
    rsh_execute mode [] = Except.error ⟨"Failed to get args".toList⟩ :=
  rfl

/-- Claim C8, witness: the amended theorem applied in pipe mode. -/
theorem rsh_execute_empty_error_witness :
    rsh_execute ProcessMode.pipe [] =
      Except.error ⟨"Failed to get args".toList⟩ :=
  rsh_execute_empty_error ProcessMode.pipe

/-! ## Claim C9 — history CSV round trip -/

theorem csv_write_all_concat (pairs : List (List Char × List Char)) :
    ∀ content, csv_write_all pairs content = content ++ joinRecords pairs := by
  induction pairs with
  | nil => intro content; simp [csv_write_all, joinRecords]
  | cons p ps ih =>
    intro content
    show csv_write_all ps (csv_writer p.1 p.2 content) = _
    rw [ih, csv_writer, joinRecords, List.append_assoc]

theorem splitComma_noComma (t : List Char) (ht : ∀ c ∈ t, ¬ c = ',') :
    splitComma t = [t] := by
  induction t with
  | nil => rfl
  | cons x t' ih =>
    have hx : ¬ x = ',' := ht x (List.mem_cons_self x t')
    rw [splitComma, if_neg hx, ih (fun c hc => ht c (List.mem_cons_of_mem x hc))]

theorem splitComma_exact (u v : List Char)
    (hu : ∀ c ∈ u, ¬ c = ',') (hv : ∀ c ∈ v, ¬ c = ',') :
    splitComma (u ++ ',' :: v) = [u, v] := by
  induction u with
  | nil => simp [splitComma, splitComma_noComma v hv]
  | cons x u' ih =>
    have hx : ¬ x = ',' := hu x (List.mem_cons_self x u')
    rw [List.cons_append, splitComma, if_neg hx,
      ih (fun c hc => hu c (List.mem_cons_of_mem x hc))]

theorem endsWithCR_append_cons (u : List Char) (c : Char) (v : List Char) :
    endsWithCR (u ++ c :: v) = endsWithCR (c :: v) := by
  induction u with
  | nil => rfl
  | cons x u' ih =>
    rw [List.cons_append]
    cases hu : u' ++ c :: v with
    | nil => exact absurd hu (by simp)
    | cons y t =>
      rw [endsWithCR, ← hu, ih]

theorem linesOf_nl (rest : List Char) :
    linesOf ('\n' :: rest) = [] :: linesOf rest := by
  cases rest <;> simp [linesOf]

theorem linesOf_line (t : List Char) :
    ∀ rest, (∀ c ∈ t, ¬ c = '\n') → endsWithCR t = false →
    linesOf (t ++ '\n' :: rest) = t :: linesOf rest := by
  induction t with
  | nil => intro rest _ _; exact linesOf_nl rest
  | cons x t' ih =>
    intro rest ht hcr
    have hx : ¬ x = '\n' := ht x (List.mem_cons_self x t')
    cases t' with
    | nil =>
      have hxr : ¬ x = '\r' := by simpa [endsWithCR] using hcr
      rw [List.cons_append, List.nil_append]
      rw [linesOf]
      rw [if_neg hx, if_neg (by intro hc; exact hxr hc.1)]
      rw [linesOf_nl rest]
    | cons y t'' =>
      have hy : ¬ y = '\n' := ht y (List.mem_cons_of_mem x (List.mem_cons_self y t''))
      have hcr' : endsWithCR (y :: t'') = false := by
        rw [show endsWithCR (y :: t'') = endsWithCR (x :: y :: t'') from rfl]
        exact hcr
      have ih' := ih rest (fun c hc => ht c (List.mem_cons_of_mem x hc)) hcr'
      rw [List.cons_append]
      rw [show (y :: t'') ++ '\n' :: rest = y :: (t'' ++ '\n' :: rest) from rfl] at ih' ⊢
      rw [linesOf]
      rw [if_neg hx, if_neg (by intro hc; exact hy hc.2), ih']

theorem csv_reader_join :
    ∀ pairs : List (List Char × List Char), (∀ p ∈ pairs, recordOK p) →
      csv_reader (joinRecords pairs) =
        pairs.map (fun p => (⟨p.1, p.2⟩ : History)) := by
  intro pairs
  induction pairs with
  | nil => intro _; rfl
  | cons p ps ih =>
    intro h
    obtain ⟨h1, h2, h3⟩ := h p (List.mem_cons_self p ps)
    have hline : linesOf ((p.1 ++ ',' :: p.2) ++ '\n' :: joinRecords ps) =
        (p.1 ++ ',' :: p.2) :: linesOf (joinRecords ps) := by
      apply linesOf_line
      · intro c hc
        rcases List.mem_append.mp hc with hc | hc
        · exact (h1 c hc).2
        · rcases List.mem_cons.mp hc with hc | hc
          · rw [hc]; decide
          · exact (h2 c hc).2
      · rw [endsWithCR_append_cons]
        cases hp2 : p.2 with
        | nil => decide
        | cons z w =>
          rw [endsWithCR, ← hp2]
          exact h3
    have hjoin : joinRecords (p :: ps) =
        (p.1 ++ ',' :: p.2) ++ '\n' :: joinRecords ps := by
      rw [joinRecords]
      simp [List.append_assoc]
    have hsplit : splitComma (p.1 ++ ',' :: p.2) = [p.1, p.2] :=
      splitComma_exact p.1 p.2 (fun c hc => (h1 c hc).1) (fun c hc => (h2 c hc).1)
    rw [List.map_cons, ← ih (fun q hq => h q (List.mem_cons_of_mem p hq))]
    rw [csv_reader, csv_reader, hjoin, hline, List.filterMap_cons, hsplit]

/-- Claim C9, amended.  Appending records with `csv_writer` to a fresh file
and reading them back with `csv_reader` returns exactly the written pairs in
order, provided neither field contains a comma or a line feed *and the time
field does not end in a carriage return* (which `BufRead::lines` would strip
as part of a CRLF line ending). -/
theorem csv_round_trip (pairs : List (List Char × List Char))
    (h : ∀ p ∈ pairs, recordOK p) :
    csv_reader (csv_write_all pairs []) =
      pairs.map (fun p => (⟨p.1, p.2⟩ : History)) := by
  rw [csv_write_all_concat, List.nil_append]
  exact csv_reader_join pairs h

/-! ## Claim C10 — every parser-produced AST is grammar-shaped -/

/-- Claim C10, confirmed.  In every AST `parse_node` returns, every
`CommandStatement` carries an `Identifier` in command position and only
`Identifier` nodes in its argument list (and, more generally, every node
sits where the grammar puts it, with `Identifier` leaves in all
destination, define and script-name positions) — so the argument resolver's
non-`Identifier` branches are unreachable on parser-produced input. -/
theorem parser_output_invariant (s r : List Char) (n : Node)
    (h : parse_node s = some (r, n)) : astWF n = true := by
  rw [parse_node, parse_compound_statement] at h
  cases hq : altP (runMany1 parse_stmt_semi) (runMany1 parse_statement) s with
  | none => rw [hq] at h; simp at h
  | some v =>
    obtain ⟨rest, stmts⟩ := v
    rw [hq] at h
    simp at h
    rw [← h.2]
    have hall : ∀ x ∈ stmts, stmtWF x = true := by
      rcases altP_cases hq with hq | hq
      · exact runMany1_all parse_stmt_semi (fun a => stmtWF a = true)
          (fun _ _ _ ha => parse_stmt_semi_shape ha) s rest stmts hq
      · exact runMany1_all parse_statement (fun a => stmtWF a = true)
          (fun _ _ _ ha => parse_statement_shape ha) s rest stmts hq
    show stmts.all stmtWF = true
    rw [List.all_eq_true]
    exact hall

/-- Claim C10, witness: the invariant applied to the parse of
`echo ok | cat file.txt`. -/
theorem parser_output_invariant_witness :
    astWF (Node.compoundStatement
      [Node.pipeline
        [Node.commandStatement (Node.identifier "echo".toList)
          [Node.identifier "ok".toList],
          Node.commandStatement (Node.identifier "cat".toList)
            [Node.identifier "file.txt".toList]]]) = true :=
  parser_output_invariant "echo ok | cat file.txt".toList [] _ rfl

/-- Claim C9, witness: the round trip applied to two concrete history
records. -/
theorem csv_round_trip_witness :
    csv_reader (csv_write_all
      [("ls -a".toList, "2024-01-01 10:00:00".toList),
        ("cd /tmp".toList, "2024-01-01 10:00:01".toList)] []) =
      [⟨"ls -a".toList, "2024-01-01 10:00:00".toList⟩,
        ⟨"cd /tmp".toList, "2024-01-01 10:00:01".toList⟩] :=
  csv_round_trip
    [("ls -a".toList, "2024-01-01 10:00:00".toList),
      ("cd /tmp".toList, "2024-01-01 10:00:01".toList)]
    (by decide)

/-- Claim C9, counterexample.  The claim allows any field without a comma or
newline, but `BufRead::lines` in `csv_reader` also strips a carriage return
preceding the line feed: a record whose time field ends in `'\r'` is read
back without it. -/
theorem csv_round_trip_cex :
    csv_reader (csv_write_all [("c".toList, ['x', '\r'])] []) =
      [⟨"c".toList, ['x']⟩] ∧
    (⟨"c".toList, ['x']⟩ : History) ≠ ⟨"c".toList, ['x', '\r']⟩ :=
  ⟨rfl, by decide⟩

end Rsh
